import Mathlib

/-!
Verification of `saona-raimundo/coalescence`, file `src/coalescent.rs`.

The file embeds the coalescent process of the repository: the structure
`Coalescent` (a partition state plus an owned random source), the iterator
step `next`, and `generate_realization`, together with interface models of
the external collaborators (`partitions::PartitionVec`, `rand::Rng`,
`rand_distr::Exp`) as the specification describes them.
-/

namespace Coalescence

/-- Model of the external random source (`rand::Rng`): a deterministic
stream of naturals `seq` together with a cursor giving the position of the
next draw.  Duplication of the source copies both fields, giving an
independent object, as the specification's duplication contract demands. -/
structure SRng where
  seq : Nat → Nat
  cursor : Nat

/-- The value the source will deliver next. -/
def SRng.peek (g : SRng) : Nat := g.seq g.cursor

/-- Consume one draw from the source. -/
def SRng.advance (g : SRng) : SRng := ⟨g.seq, g.cursor + 1⟩

/-- Model of `Rng::gen_range(0, bound)`: a value in `[0, bound)` obtained
from the stream, together with the advanced source. -/
def SRng.genRange (g : SRng) (bound : Nat) : Nat × SRng :=
  (g.peek % bound, g.advance)

/-- Model of `rand_distr::Exp`: the distribution record stores the rate. -/
structure ExpDist where
  rate : ℚ

/-- Model of `rand_distr::Exp::new`: fails (returns an error, so that the
`unwrap()` in the source panics) exactly on a non-positive rate. -/
def ExpDist.new (rate : ℚ) : Option ExpDist :=
  if rate ≤ 0 then none else some ⟨rate⟩

/-- A standard (rate-one) exponential variate produced from the stream,
modelled as a positive rational read off the stream. -/
def stdExpVariate (g : SRng) : ℚ × SRng := ((g.peek : ℚ) + 1, g.advance)

/-- Model of `Exp::sample`: a standard exponential variate scaled by the
inverse rate, which is how `rand_distr` produces an `Exp(rate)` sample. -/
def ExpDist.sample (e : ExpDist) (g : SRng) : ℚ × SRng :=
  ((stdExpVariate g).1 / e.rate, (stdExpVariate g).2)

/-- Interface model of `partitions::PartitionVec<()>` (external, §4.3 of the
specification): the blocks of the partition in their stable enumeration
order, each block listing its elements in their stable order. -/
abbrev Partition := List (List Nat)

/-- The partition of `{0, …, n-1}` into `n` singleton blocks, as built by
`Coalescent::new` via `PartitionVec::from` of `n` unit values. -/
def singletons (n : Nat) : Partition := (List.range n).map (fun i => [i])

/-- Model of `PartitionVec::amount_of_sets`. -/
def amountOfSets (p : Partition) : Nat := p.length

/-- Model of `all_sets().nth(i).unwrap().nth(0)`: the first element of the
`i`-th block in the block enumeration order. -/
def blockHead (p : Partition) (i : Nat) : Option Nat :=
  p[i]?.bind List.head?

/-- Index of the block containing a given element (the first such block in
enumeration order; on a genuine partition the blocks are disjoint, so the
containing block is unique). -/
def findBlockIdx : Partition → Nat → Option Nat
  | [], _ => none
  | b :: p, v => if v ∈ b then some 0 else (findBlockIdx p v).map (· + 1)

/-- Merge the blocks at positions `lo` and `hi` (`lo < hi`): the merged
block replaces the one at `lo`, the one at `hi` disappears. -/
def mergeBlocks (p : Partition) (lo hi : Nat) : Partition :=
  (p.set lo (p.getD lo [] ++ p.getD hi [])).eraseIdx hi

/-- Interface model of `PartitionVec::union(a, b)`: merge the blocks
containing the elements `a` and `b`; a no-op when they already share a
block.  The merged block takes the position of the earlier of the two. -/
def unionP (p : Partition) (a b : Nat) : Partition :=
  match findBlockIdx p a, findBlockIdx p b with
  | some i, some j => if i = j then p else mergeBlocks p (min i j) (max i j)
  | _, _ => p

/-- The coalescent process of `coalescent.rs`: a partition state and an
exclusively owned random source. -/
structure Coalescent where
  state : Partition
  rng : SRng

/-- `Coalescent::new(group_size, rng)`. -/
def Coalescent.new (group_size : Nat) (rng : SRng) : Coalescent :=
  { state := singletons group_size, rng := rng }

/-- `(0..k).tuple_combinations()` of `itertools`: all pairs `(i, j)` with
`i < j < k`, enumerated lexicographically. -/
def tupleCombinations (k : Nat) : List (Nat × Nat) :=
  (List.range k).flatMap fun i =>
    (List.range' (i + 1) (k - (i + 1))).map fun j => (i, j)

/-- Outcome of one call of the iterator `next` of `Coalescent`:
termination (`None` in the source), a panic of one of the `unwrap()` calls,
or an event carrying the waiting time, the partition snapshot, the updated
process and the updated global source. -/
inductive StepResult where
  | done : StepResult
  | panicked : StepResult
  | event : ℚ → Partition → Coalescent → SRng → StepResult

/-- `Iterator::next` of `Coalescent` (lines 75–123 of the source).  The
global source `g` models `rand::thread_rng()`, from which the waiting time
is sampled; the pair of blocks to merge is drawn from the owned source. -/
def next (c : Coalescent) (g : SRng) : StepResult :=
  let k := amountOfSets c.state
  if k = 1 then .done
  else
    match ExpDist.new (k : ℚ) with
    | none => .panicked
    | some e =>
      let ts := e.sample g
      let draw := c.rng.genRange (k * (k - 1) / 2)
      match (tupleCombinations k)[draw.1]? with
      | none => .panicked
      | some ij =>
        match blockHead c.state ij.1, blockHead c.state ij.2 with
        | some v1, some v2 =>
          let p' := unionP c.state v1 v2
          .event ts.1 p' { state := p', rng := draw.2 } ts.2
        | _, _ => .panicked

/-- Drain the iterator to completion, collecting the produced events.  The
fuel bounds the number of events; `none` models a panic (or insufficient
fuel, which never occurs on the fuel `generate_realization` passes). -/
def runSteps (fuel : Nat) (c : Coalescent) (g : SRng) :
    Option (List (ℚ × Partition) × Coalescent × SRng) :=
  match next c g, fuel with
  | .done, _ => some ([], c, g)
  | .panicked, _ => none
  | .event _ _ _ _, 0 => none
  | .event t p c' g', fuel' + 1 =>
    (runSteps fuel' c' g').map fun r => ((t, p) :: r.1, r.2)

/-- `Coalescent::generate_realization` (lines 46–53 of the source): record
the initial state, iterate a clone of the process to exhaustion collecting
the events behind the initial `(0.0, initial_state)` entry, then restore
the (untouched) state of the process itself.  Returns the realization, the
process as left by the call, and the advanced global source. -/
def generate_realization (c : Coalescent) (g : SRng) :
    Option (List (ℚ × Partition) × Coalescent × SRng) :=
  match runSteps (amountOfSets c.state) c g with
  | none => none
  | some (evs, _, g') =>
    some ((0, c.state) :: evs, { state := c.state, rng := c.rng }, g')

/-- The list `[m, m-1, …, 1]`. -/
def countdown : Nat → List Nat
  | 0 => []
  | m + 1 => (m + 1) :: countdown m

/-- The blocks form a genuine partition of `{0, …, n-1}`: no block is
empty and, read in order, the elements of the blocks are a permutation of
`0, …, n-1` (which also forces the blocks to be pairwise disjoint). -/
def ValidPartition (n : Nat) (p : Partition) : Prop :=
  (∀ b ∈ p, b ≠ []) ∧ p.flatten.Perm (List.range n)

/-- The process states reachable through the public constructor (with a
positive group size) and the iterator. -/
inductive Reachable : Coalescent → Prop where
  | base (n : Nat) (hn : 1 ≤ n) (rng : SRng) : Reachable (Coalescent.new n rng)
  | step (c : Coalescent) (g : SRng) (t : ℚ) (p : Partition) (c' : Coalescent)
      (g' : SRng) : Reachable c → next c g = .event t p c' g' → Reachable c'

/-- Lexicographic order on pairs, the order in which `tuple_combinations`
enumerates them. -/
def lexLt (a b : Nat × Nat) : Prop :=
  a.1 < b.1 ∨ (a.1 = b.1 ∧ a.2 < b.2)

/-! ### Basic facts about the partition model -/

theorem flatten_map_singleton : ∀ l : List Nat, ((l.map fun i => [i]).flatten) = l
  | [] => rfl
  | x :: xs => by simp [flatten_map_singleton xs]

theorem singletons_valid (n : Nat) : ValidPartition n (singletons n) := by
  constructor
  · intro b hb
    simp only [singletons, List.mem_map] at hb
    obtain ⟨x, _, rfl⟩ := hb
    simp
  · rw [singletons, flatten_map_singleton]

theorem amountOfSets_singletons (n : Nat) : amountOfSets (singletons n) = n := by
  simp [amountOfSets, singletons]

theorem valid_disjoint {n : Nat} {p : Partition} (h : ValidPartition n p) :
    p.Pairwise List.Disjoint :=
  (List.nodup_flatten.mp (h.2.symm.nodup (List.nodup_range n))).2

theorem valid_pos {n : Nat} {p : Partition} (hn : 1 ≤ n) (hv : ValidPartition n p) :
    1 ≤ amountOfSets p := by
  by_contra h
  have hp : p = [] := by
    cases p with
    | nil => rfl
    | cons b t => simp [amountOfSets] at h
  subst hp
  have : (0 : Nat) ∈ List.range n := List.mem_range.mpr (by omega)
  rw [← hv.2.mem_iff] at this
  simp at this

/-! ### The pair enumeration `tuple_combinations` -/

theorem sum_map_range (f : Nat → Nat) :
    ∀ n, ((List.range n).map f).sum = ∑ i ∈ Finset.range n, f i
  | 0 => by simp
  | n + 1 => by
    rw [List.range_succ, Finset.sum_range_succ, List.map_append, List.sum_append,
      sum_map_range f n]
    simp

theorem tupleCombinations_length (k : Nat) :
    (tupleCombinations k).length = k * (k - 1) / 2 := by
  have h1 : (tupleCombinations k).length = ∑ i ∈ Finset.range k, (k - (i + 1)) := by
    rw [tupleCombinations, List.flatMap_def, List.length_flatten, List.map_map]
    have h2 : (List.length ∘ fun i => (List.range' (i + 1) (k - (i + 1))).map
        fun j => (i, j)) = fun i => k - (i + 1) := by
      funext i
      simp
    rw [h2, sum_map_range]
  rw [h1]
  have h3 : ∀ i ∈ Finset.range k, k - (i + 1) = (fun j => j) (k - 1 - i) := by
    intro i _
    show k - (i + 1) = k - 1 - i
    omega
  rw [Finset.sum_congr rfl h3, Finset.sum_range_reflect (fun j => j) k]
  simpa using Finset.sum_range_id k

theorem tupleCombinations_mem {k i j : Nat} :
    (i, j) ∈ tupleCombinations k ↔ i < j ∧ j < k := by
  simp only [tupleCombinations, List.mem_flatMap, List.mem_map, List.mem_range,
    List.mem_range', Prod.mk.injEq]
  constructor
  · rintro ⟨a, ha, b, ⟨t, ht, rfl⟩, rfl, rfl⟩
    omega
  · rintro ⟨hij, hjk⟩
    exact ⟨i, by omega, j, ⟨j - (i + 1), by omega, by omega⟩, rfl, rfl⟩

theorem tupleCombinations_pairwise (k : Nat) :
    List.Pairwise lexLt (tupleCombinations k) := by
  rw [tupleCombinations, List.pairwise_flatMap]
  constructor
  · intro a _
    rw [List.pairwise_map]
    exact (List.pairwise_lt_range' (a + 1) (k - (a + 1))).imp
      fun h => Or.inr ⟨rfl, h⟩
  · refine (List.pairwise_lt_range k).imp ?_
    intro a b hab x hx y hy
    simp only [List.mem_map] at hx hy
    obtain ⟨j1, _, rfl⟩ := hx
    obtain ⟨j2, _, rfl⟩ := hy
    exact Or.inl hab

theorem tupleCombinations_getElem {k r : Nat} (h : r < k * (k - 1) / 2) :
    ∃ i j, (tupleCombinations k)[r]? = some (i, j) ∧ i < j ∧ j < k := by
  have hl : r < (tupleCombinations k).length := by
    rw [tupleCombinations_length]
    exact h
  obtain ⟨ij, hij⟩ : ∃ ij, (tupleCombinations k)[r]? = some ij :=
    ⟨_, List.getElem?_eq_getElem hl⟩
  obtain ⟨i, j⟩ := ij
  have := tupleCombinations_mem.mp (List.getElem?_mem hij)
  exact ⟨i, j, hij, this.1, this.2⟩

/-! ### Merging two blocks -/

theorem flatten_getElem_eraseIdx (l : List (List Nat)) :
    ∀ (i : Nat), ∀ h : i < l.length,
      (l.get ⟨i, h⟩ ++ (l.eraseIdx i).flatten).Perm l.flatten := by
  induction l with
  | nil => intro i h; simp at h
  | cons b t ih =>
    intro i h
    cases i with
    | zero => simp
    | succ m =>
      have h' : m < t.length := by simpa using h
      simp only [List.eraseIdx_cons_succ, List.flatten_cons, List.get_eq_getElem,
        List.getElem_cons_succ]
      rw [← List.append_assoc]
      refine List.Perm.trans (List.Perm.append_right _ List.perm_append_comm) ?_
      rw [List.append_assoc]
      exact List.Perm.append_left b (by simpa using ih m h')

theorem mergeBlocks_flatten_perm (p : Partition) :
    ∀ (lo hi : Nat), lo < hi → hi < p.length →
      (mergeBlocks p lo hi).flatten.Perm p.flatten := by
  induction p with
  | nil => intro lo hi _ hhi; simp at hhi
  | cons b t ih =>
    intro lo hi hlo hhi
    cases lo with
    | zero =>
      cases hi with
      | zero => omega
      | succ m =>
        have hm : m < t.length := by simpa using hhi
        have hget : t.getD m [] = t.get ⟨m, hm⟩ := by
          simp [List.getD_eq_getElem?_getD, List.getElem?_eq_getElem hm]
        simp only [mergeBlocks, List.set_cons_zero, List.getD_cons_zero,
          List.getD_cons_succ, List.eraseIdx_cons_succ, List.flatten_cons, hget]
        rw [List.append_assoc]
        exact List.Perm.append_left b (flatten_getElem_eraseIdx t m hm)
    | succ lo' =>
      cases hi with
      | zero => omega
      | succ m =>
        have hm : m < t.length := by simpa using hhi
        have hstep : mergeBlocks (b :: t) (lo' + 1) (m + 1)
            = b :: mergeBlocks t lo' m := by
          simp [mergeBlocks]
        rw [hstep]
        simp only [List.flatten_cons]
        exact List.Perm.append_left b (ih lo' m (by omega) hm)

theorem mergeBlocks_length (p : Partition) (lo hi : Nat) (hhi : hi < p.length) :
    (mergeBlocks p lo hi).length + 1 = p.length := by
  rw [mergeBlocks, List.length_eraseIdx_of_lt (by simpa using hhi), List.length_set]
  omega

theorem mergeBlocks_mem {p : Partition} {lo hi : Nat} {b : List Nat}
    (hb : b ∈ mergeBlocks p lo hi) :
    b = p.getD lo [] ++ p.getD hi [] ∨ b ∈ p := by
  have hset : b ∈ p.set lo (p.getD lo [] ++ p.getD hi []) :=
    (List.eraseIdx_sublist _ hi).mem hb
  rcases List.mem_or_eq_of_mem_set hset with h | h
  · exact Or.inr h
  · exact Or.inl h

/-! ### Locating the block of an element -/

theorem findBlockIdx_eq : ∀ (p : Partition) (i v : Nat),
    p.Pairwise List.Disjoint → ∀ hi : i < p.length, v ∈ p.get ⟨i, hi⟩ →
      findBlockIdx p v = some i
  | [], i, v => by intro _ hi; simp at hi
  | b :: t, 0, v => by
    intro _ _ hv
    simp only [List.get_eq_getElem, List.getElem_cons_zero] at hv
    simp [findBlockIdx, hv]
  | b :: t, i + 1, v => by
    intro hd hi hv
    simp only [List.get_eq_getElem, List.getElem_cons_succ] at hv
    have hit : i < t.length := by simpa using hi
    have hvb : v ∉ b := by
      intro hvb
      have hmem : t[i] ∈ t := List.getElem_mem hit
      exact (List.pairwise_cons.mp hd).1 t[i] hmem hvb hv
    have hrec : findBlockIdx t v = some i :=
      findBlockIdx_eq t i v (List.pairwise_cons.mp hd).2 hit (by simpa using hv)
    simp only [findBlockIdx, if_neg hvb, hrec, Option.map_some]
    rfl

theorem blockHead_mem {p : Partition} {i v : Nat} (h : blockHead p i = some v) :
    ∃ hi : i < p.length, v ∈ p.get ⟨i, hi⟩ := by
  rw [blockHead] at h
  cases hq : p[i]? with
  | none => rw [hq] at h; simp at h
  | some blk =>
    rw [hq] at h
    simp only [Option.some_bind] at h
    obtain ⟨hi, hget⟩ := List.getElem?_eq_some_iff.mp hq
    refine ⟨hi, ?_⟩
    simp only [List.get_eq_getElem, hget]
    exact List.mem_of_mem_head? h

theorem blockHead_of_valid {n : Nat} {p : Partition} (hv : ValidPartition n p)
    {i : Nat} (hi : i < p.length) : ∃ v, blockHead p i = some v := by
  have hne : p.get ⟨i, hi⟩ ≠ [] := hv.1 _ (List.get_mem p i hi)
  refine ⟨(p.get ⟨i, hi⟩).head hne, ?_⟩
  rw [blockHead, List.getElem?_eq_getElem hi]
  simp only [Option.some_bind, List.get_eq_getElem]
  exact List.head?_eq_head _

/-! ### `union` on a valid partition -/

theorem unionP_spec {n : Nat} {p : Partition} (hv : ValidPartition n p)
    {i j v1 v2 : Nat} (hij : i ≠ j)
    (h1 : blockHead p i = some v1) (h2 : blockHead p j = some v2) :
    unionP p v1 v2 = mergeBlocks p (min i j) (max i j) ∧
    ValidPartition n (unionP p v1 v2) ∧
    amountOfSets (unionP p v1 v2) + 1 = amountOfSets p := by
  obtain ⟨hi, hv1⟩ := blockHead_mem h1
  obtain ⟨hj, hv2⟩ := blockHead_mem h2
  have hd := valid_disjoint hv
  have hf1 : findBlockIdx p v1 = some i := findBlockIdx_eq p i v1 hd hi hv1
  have hf2 : findBlockIdx p v2 = some j := findBlockIdx_eq p j v2 hd hj hv2
  have hu : unionP p v1 v2 = mergeBlocks p (min i j) (max i j) := by
    rw [unionP, hf1, hf2]
    simp [hij]
  have hmaxlt : max i j < p.length := by omega
  have hminmax : min i j < max i j := by omega
  refine ⟨hu, ⟨?_, ?_⟩, ?_⟩
  · intro b hb
    rw [hu] at hb
    rcases mergeBlocks_mem hb with hb | hb
    · subst hb
      have hlo : p.getD (min i j) [] ∈ p := by
        rw [List.getD_eq_getElem?_getD, List.getElem?_eq_getElem (by omega : min i j < p.length)]
        exact List.getElem_mem _
      have := hv.1 _ hlo
      intro hcontra
      rw [List.append_eq_nil] at hcontra
      exact this hcontra.1
    · exact hv.1 _ hb
  · rw [hu]
    exact (mergeBlocks_flatten_perm p _ _ hminmax hmaxlt).trans hv.2
  · rw [hu, amountOfSets, amountOfSets, mergeBlocks_length p _ _ hmaxlt]

/-! ### The transition `next` on a valid state -/

theorem next_eq_event {n : Nat} (c : Coalescent) (g : SRng)
    (hv : ValidPartition n c.state) (hk : 2 ≤ amountOfSets c.state) :
    ∃ i j v1 v2,
      (tupleCombinations (amountOfSets c.state))[c.rng.peek %
          (amountOfSets c.state * (amountOfSets c.state - 1) / 2)]? = some (i, j) ∧
      i < j ∧ j < amountOfSets c.state ∧
      blockHead c.state i = some v1 ∧ blockHead c.state j = some v2 ∧
      next c g = .event ((stdExpVariate g).1 / (amountOfSets c.state : ℚ))
          (unionP c.state v1 v2)
          { state := unionP c.state v1 v2, rng := c.rng.advance } g.advance ∧
      ValidPartition n (unionP c.state v1 v2) ∧
      amountOfSets (unionP c.state v1 v2) + 1 = amountOfSets c.state := by
  have hbound : 0 < amountOfSets c.state * (amountOfSets c.state - 1) / 2 := by
    have h2 : 2 ≤ amountOfSets c.state * (amountOfSets c.state - 1) := by
      have := Nat.mul_le_mul hk (show 1 ≤ amountOfSets c.state - 1 by omega)
      omega
    omega
  have hr : c.rng.peek % (amountOfSets c.state * (amountOfSets c.state - 1) / 2)
      < amountOfSets c.state * (amountOfSets c.state - 1) / 2 :=
    Nat.mod_lt _ hbound
  obtain ⟨i, j, hpair, hij, hjk⟩ := tupleCombinations_getElem hr
  obtain ⟨v1, hb1⟩ := blockHead_of_valid hv (show i < c.state.length by
    change i < amountOfSets c.state
    omega)
  obtain ⟨v2, hb2⟩ := blockHead_of_valid hv (show j < c.state.length from hjk)
  obtain ⟨hu, hvalid, hcount⟩ := unionP_spec hv (show i ≠ j by omega) hb1 hb2
  have hk1 : ¬ (amountOfSets c.state = 1) := by omega
  have hkpos : ¬ ((amountOfSets c.state : ℚ) ≤ 0) :=
    not_le.mpr (by exact_mod_cast Nat.lt_of_lt_of_le Nat.zero_lt_two hk)
  have hExp : ExpDist.new ((amountOfSets c.state : ℕ) : ℚ)
      = some ⟨((amountOfSets c.state : ℕ) : ℚ)⟩ := by
    rw [ExpDist.new, if_neg hkpos]
  refine ⟨i, j, v1, v2, hpair, hij, hjk, hb1, hb2, ?_, hvalid, hcount⟩
  simp only [next, SRng.genRange]
  rw [if_neg hk1, hExp]
  simp only [ExpDist.sample, stdExpVariate, SRng.peek]
  rw [SRng.peek] at hpair
  rw [hpair]
  simp only [hb1, hb2]

theorem next_event_two_le {c : Coalescent} {g : SRng} {t : ℚ} {p : Partition}
    {c' : Coalescent} {g' : SRng} (h : next c g = .event t p c' g') :
    2 ≤ amountOfSets c.state := by
  by_contra hlt
  push_neg at hlt
  rcases (show amountOfSets c.state = 0 ∨ amountOfSets c.state = 1 by omega) with h0 | h1
  · simp [next, h0, ExpDist.new] at h
  · simp [next, h1] at h

theorem next_event_elim {n : Nat} {c : Coalescent} {g : SRng} {t : ℚ}
    {p : Partition} {c' : Coalescent} {g' : SRng}
    (hv : ValidPartition n c.state) (h : next c g = .event t p c' g') :
    p = c'.state ∧ ValidPartition n c'.state ∧
      amountOfSets c'.state + 1 = amountOfSets c.state := by
  have hk := next_event_two_le h
  obtain ⟨i, j, v1, v2, _, _, _, _, _, heq, hvalid, hcount⟩ := next_eq_event c g hv hk
  rw [h] at heq
  rcases heq with ⟨rfl, rfl, rfl, rfl⟩
  exact ⟨rfl, hvalid, hcount⟩

theorem next_done_iff {c : Coalescent} {g : SRng} :
    next c g = .done ↔ amountOfSets c.state = 1 := by
  constructor
  · intro h
    by_contra h1
    rw [next] at h
    simp only [if_neg h1] at h
    rcases hE : ExpDist.new ((amountOfSets c.state : ℕ) : ℚ) with _ | e
    · rw [hE] at h
      simp at h
    · rw [hE] at h
      simp only at h
      rcases hP : (tupleCombinations (amountOfSets c.state))[(c.rng.genRange
          (amountOfSets c.state * (amountOfSets c.state - 1) / 2)).1]? with _ | ij
      · rw [hP] at h
        simp at h
      · rw [hP] at h
        simp only at h
        rcases hB1 : blockHead c.state ij.1 with _ | w1 <;>
          rcases hB2 : blockHead c.state ij.2 with _ | w2 <;>
            rw [hB1, hB2] at h <;> simp at h
  · intro h
    rw [next, if_pos h]

/-! ### Reachable states carry valid partitions -/

theorem reachable_valid {c : Coalescent} (h : Reachable c) :
    ∃ n, 1 ≤ n ∧ ValidPartition n c.state := by
  induction h with
  | base n hn rng => exact ⟨n, hn, singletons_valid n⟩
  | step c g t p c' g' _ hstep ih =>
    obtain ⟨n, hn, hv⟩ := ih
    exact ⟨n, hn, (next_event_elim hv hstep).2.1⟩

/-! ### Draining the iterator -/

theorem countdown_length : ∀ m, (countdown m).length = m
  | 0 => rfl
  | m + 1 => by rw [countdown, List.length_cons, countdown_length m]

theorem runSteps_done {fuel : Nat} {c : Coalescent} {g : SRng}
    (h : next c g = .done) : runSteps fuel c g = some ([], c, g) := by
  rw [runSteps.eq_def, h]

theorem runSteps_panicked {fuel : Nat} {c : Coalescent} {g : SRng}
    (h : next c g = .panicked) : runSteps fuel c g = none := by
  rw [runSteps.eq_def, h]

theorem runSteps_event_zero {c : Coalescent} {g : SRng} {t : ℚ} {p : Partition}
    {c' : Coalescent} {g' : SRng} (h : next c g = .event t p c' g') :
    runSteps 0 c g = none := by
  rw [runSteps.eq_def, h]

theorem runSteps_event {fuel : Nat} {c : Coalescent} {g : SRng} {t : ℚ}
    {p : Partition} {c' : Coalescent} {g' : SRng}
    (h : next c g = .event t p c' g') :
    runSteps (fuel + 1) c g
      = (runSteps fuel c' g').map (fun r => ((t, p) :: r.1, r.2)) := by
  rw [runSteps.eq_def, h]

theorem runSteps_spec {n : Nat} : ∀ (k : Nat) (c : Coalescent) (g : SRng) (fuel : Nat),
    ValidPartition n c.state → amountOfSets c.state = k + 1 → k ≤ fuel →
    ∃ evs c' g', runSteps fuel c g = some (evs, c', g') ∧
      evs.map (fun e => amountOfSets e.2) = countdown k ∧
      (∀ e ∈ evs, ValidPartition n e.2) ∧
      amountOfSets c'.state = 1 ∧ ValidPartition n c'.state ∧
      (evs.map Prod.snd).getLastD c.state = c'.state := by
  intro k
  induction k with
  | zero =>
    intro c g fuel hv hcount _
    have hdone : next c g = .done := next_done_iff.mpr (by omega)
    exact ⟨[], c, g, runSteps_done hdone, rfl, by simp, by omega, hv, rfl⟩
  | succ k ih =>
    intro c g fuel hv hcount hfuel
    obtain ⟨i, j, v1, v2, _, _, _, _, _, heq, hvalid, hcnt⟩ :=
      next_eq_event c g hv (by omega)
    cases fuel with
    | zero => omega
    | succ f =>
      obtain ⟨evs', c', g', hrun, hcounts, hall, h1, hv1, hlast⟩ :=
        ih { state := unionP c.state v1 v2, rng := c.rng.advance } g.advance f
          hvalid (by simpa using (by omega : amountOfSets (unionP c.state v1 v2) = k + 1))
          (by omega)
      refine ⟨((stdExpVariate g).1 / (amountOfSets c.state : ℚ), unionP c.state v1 v2)
          :: evs', c', g', ?_, ?_, ?_, h1, hv1, ?_⟩
      · rw [runSteps_event heq, hrun]
        rfl
      · simp only [List.map_cons, hcounts, countdown]
        have : amountOfSets (unionP c.state v1 v2) = k + 1 := by omega
        rw [this]
      · intro e he
        rcases List.mem_cons.mp he with rfl | he
        · exact hvalid
        · exact hall e he
      · simp only [List.map_cons, List.getLastD_cons]
        exact hlast

/-! ### The realization builder -/

theorem generate_realization_eq {c : Coalescent} {g : SRng}
    {evs : List (ℚ × Partition)} {c' : Coalescent} {g' : SRng}
    (h : runSteps (amountOfSets c.state) c g = some (evs, c', g')) :
    generate_realization c g
      = some ((0, c.state) :: evs, { state := c.state, rng := c.rng }, g') := by
  rw [generate_realization, h]

theorem generate_realization_spec {n : Nat} (c : Coalescent) (g : SRng)
    (hv : ValidPartition n c.state) (hn : 1 ≤ amountOfSets c.state) :
    ∃ evs g',
      generate_realization c g
        = some ((0, c.state) :: evs, { state := c.state, rng := c.rng }, g') ∧
      evs.map (fun e => amountOfSets e.2) = countdown (amountOfSets c.state - 1) ∧
      (∀ e ∈ evs, ValidPartition n e.2) ∧
      ∃ pl, (evs.map Prod.snd).getLastD c.state = pl ∧
        amountOfSets pl = 1 ∧ ValidPartition n pl := by
  obtain ⟨evs, c', g', hrun, hcounts, hall, h1, hv1, hlast⟩ :=
    runSteps_spec (amountOfSets c.state - 1) c g (amountOfSets c.state) hv
      (by omega) (by omega)
  exact ⟨evs, g', generate_realization_eq hrun, hcounts, hall,
    c'.state, hlast, h1, hv1⟩

/-! ### The waiting-time source plays no part in the merge choices -/

theorem next_shape (c : Coalescent) (g1 g2 : SRng) :
    (next c g1 = .done ∧ next c g2 = .done) ∨
    (next c g1 = .panicked ∧ next c g2 = .panicked) ∨
    (∃ t1 t2 p c', next c g1 = .event t1 p c' g1.advance ∧
      next c g2 = .event t2 p c' g2.advance) := by
  by_cases h1 : amountOfSets c.state = 1
  · exact Or.inl ⟨by rw [next, if_pos h1], by rw [next, if_pos h1]⟩
  rcases hE : ExpDist.new ((amountOfSets c.state : ℕ) : ℚ) with _ | e
  · refine Or.inr (Or.inl ⟨?_, ?_⟩) <;> (rw [next, if_neg h1]; simp only [hE])
  rcases hP : (tupleCombinations (amountOfSets c.state))[(c.rng.genRange
      (amountOfSets c.state * (amountOfSets c.state - 1) / 2)).1]? with _ | ij
  · refine Or.inr (Or.inl ⟨?_, ?_⟩) <;>
      (rw [next, if_neg h1]; simp only [hE, hP])
  rcases hB1 : blockHead c.state ij.1 with _ | w1
  · refine Or.inr (Or.inl ⟨?_, ?_⟩) <;>
      (rw [next, if_neg h1]; simp only [hE, hP, hB1])
  rcases hB2 : blockHead c.state ij.2 with _ | w2
  · refine Or.inr (Or.inl ⟨?_, ?_⟩) <;>
      (rw [next, if_neg h1]; simp only [hE, hP, hB1, hB2])
  · refine Or.inr (Or.inr ⟨(e.sample g1).1, (e.sample g2).1, unionP c.state w1 w2,
      { state := unionP c.state w1 w2, rng := (c.rng.genRange
        (amountOfSets c.state * (amountOfSets c.state - 1) / 2)).2 }, ?_, ?_⟩) <;>
      (rw [next, if_neg h1]; simp only [hE, hP, hB1, hB2]; rfl)

theorem map_parts_cons {t1 t2 : ℚ} {p : Partition}
    {o1 o2 : Option (List (ℚ × Partition) × Coalescent × SRng)}
    (h : o1.map (fun r => (r.1.map Prod.snd, r.2.1))
      = o2.map (fun r => (r.1.map Prod.snd, r.2.1))) :
    (o1.map (fun r => ((t1, p) :: r.1, r.2))).map
        (fun r => (r.1.map Prod.snd, r.2.1)) =
    (o2.map (fun r => ((t2, p) :: r.1, r.2))).map
        (fun r => (r.1.map Prod.snd, r.2.1)) := by
  cases o1 with
  | none =>
    cases o2 with
    | none => rfl
    | some r2 =>
      simp only [Option.map_none', Option.map_some'] at h
      exact Option.noConfusion h
  | some r1 =>
    cases o2 with
    | none =>
      simp only [Option.map_none', Option.map_some'] at h
      exact Option.noConfusion h
    | some r2 =>
      simp only [Option.map_some', Option.some_inj, Prod.mk.injEq,
        List.map_cons] at h ⊢
      exact ⟨by rw [h.1], h.2⟩

theorem runSteps_shape : ∀ (fuel : Nat) (c : Coalescent) (g1 g2 : SRng),
    Option.map (fun r => (r.1.map Prod.snd, r.2.1)) (runSteps fuel c g1) =
    Option.map (fun r => (r.1.map Prod.snd, r.2.1)) (runSteps fuel c g2) := by
  intro fuel
  induction fuel with
  | zero =>
    intro c g1 g2
    rcases next_shape c g1 g2 with ⟨h1, h2⟩ | ⟨h1, h2⟩ | ⟨t1, t2, p, c', h1, h2⟩
    · rw [runSteps_done h1, runSteps_done h2]
      simp
    · rw [runSteps_panicked h1, runSteps_panicked h2]
    · rw [runSteps_event_zero h1, runSteps_event_zero h2]
  | succ f ih =>
    intro c g1 g2
    rcases next_shape c g1 g2 with ⟨h1, h2⟩ | ⟨h1, h2⟩ | ⟨t1, t2, p, c', h1, h2⟩
    · rw [runSteps_done h1, runSteps_done h2]
      simp
    · rw [runSteps_panicked h1, runSteps_panicked h2]
    · rw [runSteps_event h1, runSteps_event h2]
      exact map_parts_cons (ih c' g1.advance g2.advance)

theorem getLast?_of_map_snd :
    ∀ (l : List (ℚ × Partition)) (d : Partition), l ≠ [] →
      ∃ t, l.getLast? = some (t, (l.map Prod.snd).getLastD d)
  | [], _, h => absurd rfl h
  | [x], _, _ => ⟨x.1, by simp⟩
  | x :: y :: tl, d, _ => by
    obtain ⟨t, ht⟩ := getLast?_of_map_snd (y :: tl) x.2 (by simp)
    refine ⟨t, ?_⟩
    rw [List.getLast?_cons_cons, ht]
    simp only [List.map_cons, List.getLastD_cons]

theorem generate_realization_inv {c : Coalescent} {g : SRng}
    {res : List (ℚ × Partition)} {c' : Coalescent} {g' : SRng}
    (h : generate_realization c g = some (res, c', g')) :
    c' = c ∧ ∃ evs cmid,
      runSteps (amountOfSets c.state) c g = some (evs, cmid, g') ∧
      res = (0, c.state) :: evs := by
  rw [generate_realization.eq_def] at h
  rcases hrs : runSteps (amountOfSets c.state) c g with _ | r
  · rw [hrs] at h
    exact absurd h (by simp)
  · obtain ⟨evs, cmid, gg⟩ := r
    rw [hrs] at h
    simp only [Option.some_inj, Prod.mk.injEq] at h
    obtain ⟨hres, hc, hg⟩ := h
    subst hg
    exact ⟨hc.symm, evs, cmid, rfl, hres.symm⟩

/-- C1: for every group size `n ≥ 1` and every random source,
`generate_realization()` on a fresh process returns a sequence of exactly
`n` (waiting time, partition) pairs; the first pair is `(0, the partition
of `n` singleton blocks)` and the last pair's partition consists of exactly
one block containing all `n` elements. -/
theorem realization_endpoints (n : Nat) (hn : 1 ≤ n) (rng g : SRng) :
    ∃ res c' g',
      generate_realization (Coalescent.new n rng) g = some (res, c', g') ∧
      res.length = n ∧
      res.head? = some (0, singletons n) ∧
      amountOfSets (singletons n) = n ∧
      (∀ b ∈ singletons n, ∃ x, b = [x]) ∧
      ∃ t blk, res.getLast? = some (t, [blk]) ∧ ∀ x, x ∈ blk ↔ x < n := by
  have hv : ValidPartition n (Coalescent.new n rng).state := singletons_valid n
  have hcnt : amountOfSets (Coalescent.new n rng).state = n :=
    amountOfSets_singletons n
  obtain ⟨evs, g', hgen, hcounts, _, pl, hlast, h1, hv1⟩ :=
    generate_realization_spec (Coalescent.new n rng) g hv (by omega)
  have hlen : evs.length = n - 1 := by
    have := congrArg List.length hcounts
    rw [List.length_map, countdown_length] at this
    rw [this, hcnt]
  refine ⟨(0, (Coalescent.new n rng).state) :: evs, _, g', hgen, ?_, ?_, ?_, ?_, ?_⟩
  · simp only [List.length_cons]
    omega
  · rfl
  · exact amountOfSets_singletons n
  · intro b hb
    simp only [singletons, List.mem_map] at hb
    obtain ⟨x, _, rfl⟩ := hb
    exact ⟨x, rfl⟩
  · obtain ⟨blk, hblk⟩ := List.length_eq_one.mp h1
    obtain ⟨t, ht⟩ := getLast?_of_map_snd
      ((0, (Coalescent.new n rng).state) :: evs) (Coalescent.new n rng).state
      (by simp)
    refine ⟨t, blk, ?_, ?_⟩
    · rw [ht]
      simp only [List.map_cons, List.getLastD_cons]
      rw [hlast, hblk]
    · intro x
      have hmem : x ∈ pl.flatten ↔ x ∈ List.range n := hv1.2.mem_iff
      rw [hblk] at hmem
      simpa using hmem

/-- C2: for every group size `n ≥ 1`, the block counts of the partitions
along a realization are exactly `n, n-1, …, 1` (the list `countdown n`),
and every `next` step that produces an event on a valid state lowers the
block count by exactly one — it never increases. -/
theorem realization_block_counts (n : Nat) (hn : 1 ≤ n) (rng g : SRng) :
    (∃ res c' g',
      generate_realization (Coalescent.new n rng) g = some (res, c', g') ∧
      res.map (fun e => amountOfSets e.2) = countdown n) ∧
    (∀ (m : Nat) (c : Coalescent) (gg : SRng) (t : ℚ) (p : Partition)
        (c' : Coalescent) (g' : SRng), ValidPartition m c.state →
      next c gg = .event t p c' g' →
      amountOfSets p + 1 = amountOfSets c.state) := by
  constructor
  · have hv : ValidPartition n (Coalescent.new n rng).state := singletons_valid n
    have hcnt : amountOfSets (Coalescent.new n rng).state = n :=
      amountOfSets_singletons n
    obtain ⟨evs, g', hgen, hcounts, _, _⟩ :=
      generate_realization_spec (Coalescent.new n rng) g hv (by omega)
    refine ⟨_, _, g', hgen, ?_⟩
    obtain ⟨m, rfl⟩ : ∃ m, n = m + 1 := ⟨n - 1, by omega⟩
    simp only [List.map_cons, hcounts, hcnt, countdown]
    simp
  · intro m c gg t p c' g' hv hstep
    obtain ⟨hp, _, hcount⟩ := next_event_elim hv hstep
    rw [hp]
    exact hcount

/-- C3: with `k ≥ 2` current blocks, `next` draws a single integer
`r < k*(k-1)/2` from the owned source, maps it to the `r`-th pair of the
lexicographic enumeration of pairs `(i, j)`, `i < j`, over `0..k` (the list
`tupleCombinations k`, shown sorted and complete), resolves each chosen
block index to the first element of that block, and merges the blocks
containing those two representatives. -/
theorem step_pair_selection {n : Nat} (c : Coalescent) (g : SRng)
    (hv : ValidPartition n c.state) (hk : 2 ≤ amountOfSets c.state) :
    (c.rng.genRange (amountOfSets c.state * (amountOfSets c.state - 1) / 2)).1
        < amountOfSets c.state * (amountOfSets c.state - 1) / 2 ∧
    List.Pairwise lexLt (tupleCombinations (amountOfSets c.state)) ∧
    (∀ a b : Nat, (a, b) ∈ tupleCombinations (amountOfSets c.state) ↔
        a < b ∧ b < amountOfSets c.state) ∧
    ∃ i j v1 v2,
      (tupleCombinations (amountOfSets c.state))[(c.rng.genRange
          (amountOfSets c.state * (amountOfSets c.state - 1) / 2)).1]?
        = some (i, j) ∧
      blockHead c.state i = some v1 ∧ blockHead c.state j = some v2 ∧
      next c g = .event ((stdExpVariate g).1 / (amountOfSets c.state : ℚ))
          (unionP c.state v1 v2)
          { state := unionP c.state v1 v2, rng := c.rng.advance } g.advance := by
  obtain ⟨i, j, v1, v2, hpair, hij, hjk, hb1, hb2, heq, _, _⟩ :=
    next_eq_event c g hv hk
  have hbound : 0 < amountOfSets c.state * (amountOfSets c.state - 1) / 2 := by
    have h2 : 2 ≤ amountOfSets c.state * (amountOfSets c.state - 1) := by
      have := Nat.mul_le_mul hk (show 1 ≤ amountOfSets c.state - 1 by omega)
      omega
    omega
  refine ⟨Nat.mod_lt _ hbound, tupleCombinations_pairwise _, ?_, i, j, v1, v2,
    hpair, hb1, hb2, heq⟩
  intro a b
  exact tupleCombinations_mem

/-- C6: with `k ≥ 2` current blocks, the waiting time of the event produced
by `next` is an exponential variate with rate parameter exactly `k` — the
standard variate divided by `k`, via `Exp::new(k)` — and (except at `k = 3`
where the two coincide) `k` differs from the pairwise rate `k*(k-1)/2`. -/
theorem step_waiting_time_rate {n : Nat} (c : Coalescent) (g : SRng)
    (hv : ValidPartition n c.state) (hk : 2 ≤ amountOfSets c.state) :
    (∃ p' c' g', next c g = .event
        ((stdExpVariate g).1 / (amountOfSets c.state : ℚ)) p' c' g') ∧
    (∃ e, ExpDist.new ((amountOfSets c.state : ℕ) : ℚ) = some e ∧
      e.rate = (amountOfSets c.state : ℚ) ∧
      (e.sample g).1 = (stdExpVariate g).1 / (amountOfSets c.state : ℚ)) ∧
    (amountOfSets c.state ≠ 3 →
      (amountOfSets c.state : ℚ)
        ≠ ((amountOfSets c.state * (amountOfSets c.state - 1) / 2 : ℕ) : ℚ)) := by
  obtain ⟨i, j, v1, v2, _, _, _, _, _, heq, _, _⟩ := next_eq_event c g hv hk
  refine ⟨⟨_, _, _, heq⟩, ?_, ?_⟩
  · refine ⟨⟨(amountOfSets c.state : ℚ)⟩, ?_, rfl, rfl⟩
    rw [ExpDist.new, if_neg]
    exact not_le.mpr (by exact_mod_cast Nat.lt_of_lt_of_le Nat.zero_lt_two hk)
  · intro h3
    have hnat : amountOfSets c.state
        ≠ amountOfSets c.state * (amountOfSets c.state - 1) / 2 := by
      have h1 : amountOfSets c.state * 3
          ≤ amountOfSets c.state * (amountOfSets c.state - 1)
          ∨ amountOfSets c.state = 2 := by
        rcases Nat.lt_or_ge (amountOfSets c.state) 4 with h4 | h4
        · rcases (show amountOfSets c.state = 2 ∨ amountOfSets c.state = 3
              by omega) with h | h
          · exact Or.inr h
          · exact absurd h h3
        · exact Or.inl (Nat.mul_le_mul_left _ (by omega))
      rcases h1 with h1 | h1
      · omega
      · rw [h1]
        decide
    exact fun hq => hnat (by exact_mod_cast hq)

/-- C7: on every reachable process state, `next` returns no event exactly
when the block count is 1 — it returns `done` if and only if the partition
has exactly one block, and otherwise returns an event. -/
theorem step_none_iff_terminal (c : Coalescent) (g : SRng) (h : Reachable c) :
    (next c g = .done ↔ amountOfSets c.state = 1) ∧
    (amountOfSets c.state ≠ 1 →
      ∃ t p c' g', next c g = .event t p c' g') := by
  obtain ⟨n, hn, hv⟩ := reachable_valid h
  have hpos := valid_pos hn hv
  refine ⟨next_done_iff, ?_⟩
  intro h1
  have hk : 2 ≤ amountOfSets c.state := by omega
  obtain ⟨i, j, v1, v2, _, _, _, _, _, heq, _, _⟩ := next_eq_event c g hv hk
  exact ⟨_, _, _, _, heq⟩

/-- C8: whenever `generate_realization` returns, the observable state of
the process (its partition) is the same as before the call. -/
theorem realization_preserves_state (c : Coalescent) (g : SRng)
    (res : List (ℚ × Partition)) (c' : Coalescent) (g' : SRng)
    (h : generate_realization c g = some (res, c', g')) :
    c'.state = c.state := by
  obtain ⟨hc, _⟩ := generate_realization_inv h
  rw [hc]

/-- C5: two consecutive calls of `generate_realization` on the same
process produce realizations with identical partition sequences at every
index — the same merge pair is chosen at every step — because the call
iterates a clone of the process and never consumes the owned random
source; only the waiting times, drawn from the global source, can
differ. -/
theorem consecutive_realizations_same_partitions (c : Coalescent)
    (g1 g2 : SRng) (res1 res2 : List (ℚ × Partition)) (c1 c2 : Coalescent)
    (g1' g2' : SRng)
    (h1 : generate_realization c g1 = some (res1, c1, g1'))
    (h2 : generate_realization c1 g2 = some (res2, c2, g2')) :
    res1.map Prod.snd = res2.map Prod.snd := by
  obtain ⟨hc1, evs1, m1, hrun1, hres1⟩ := generate_realization_inv h1
  rw [hc1] at h2
  obtain ⟨_, evs2, m2, hrun2, hres2⟩ := generate_realization_inv h2
  have hs := runSteps_shape (amountOfSets c.state) c g1 g2
  rw [hrun1, hrun2] at hs
  simp only [Option.map_some', Option.some_inj, Prod.mk.injEq] at hs
  rw [hres1, hres2]
  simp only [List.map_cons]
  rw [hs.1]

/-- C9: the waiting time is drawn from the separate global source while the
owned source only selects the merge pair: the partition sequence of a
realization does not depend on the global source at all, and two runs from
the same process (same owned source) with different global sources can
produce different waiting times while the partitions agree. -/
theorem timing_from_global_source :
    (∀ (c : Coalescent) (g1 g2 : SRng),
      Option.map (fun r => r.1.map Prod.snd) (generate_realization c g1)
        = Option.map (fun r => r.1.map Prod.snd) (generate_realization c g2)) ∧
    (∃ (c : Coalescent) (g1 g2 : SRng)
        (r1 r2 : List (ℚ × Partition) × Coalescent × SRng),
      generate_realization c g1 = some r1 ∧
      generate_realization c g2 = some r2 ∧
      r1.1.map Prod.fst ≠ r2.1.map Prod.fst ∧
      r1.1.map Prod.snd = r2.1.map Prod.snd) := by
  constructor
  · intro c g1 g2
    have hs := runSteps_shape (amountOfSets c.state) c g1 g2
    rw [generate_realization.eq_def, generate_realization.eq_def]
    rcases hr1 : runSteps (amountOfSets c.state) c g1 with _ | r1 <;>
      rcases hr2 : runSteps (amountOfSets c.state) c g2 with _ | r2 <;>
        rw [hr1, hr2] at hs
    · exact absurd hs (by simp)
    · exact absurd hs (by simp)
    · obtain ⟨evs1, m1, gg1⟩ := r1
      obtain ⟨evs2, m2, gg2⟩ := r2
      simp only [Option.map_some', Option.some_inj, Prod.mk.injEq] at hs
      simp only [Option.map_some', Option.some_inj, List.map_cons]
      rw [hs.1]
  · refine ⟨Coalescent.new 2 ⟨fun _ => 0, 0⟩, ⟨fun _ => 0, 0⟩, ⟨fun _ => 1, 0⟩,
      ([(0, [[0], [1]]),
        ((((⟨fun _ => 0, 0⟩ : SRng).peek : ℚ) + 1) / ((2 : ℕ) : ℚ), [[0, 1]])],
        Coalescent.new 2 ⟨fun _ => 0, 0⟩, ⟨fun _ => 0, 1⟩),
      ([(0, [[0], [1]]),
        ((((⟨fun _ => 1, 0⟩ : SRng).peek : ℚ) + 1) / ((2 : ℕ) : ℚ), [[0, 1]])],
        Coalescent.new 2 ⟨fun _ => 0, 0⟩, ⟨fun _ => 1, 1⟩), rfl, rfl, ?_, rfl⟩
    intro hcontra
    simp only [SRng.peek, List.map_cons, List.map_nil, List.cons.injEq] at hcontra
    have := hcontra.2.1
    norm_num at this

/-- C4 (code bug): `generate_realization` returns the process with its
owned random source exactly as it was — the cursor has not advanced,
because the call iterates a clone — contradicting the function's own
documentation ("the internal random number generator will change") and the
specification's guarantee.  Evaluated at group size 2 with the owned
source at cursor 0 and the zero stream: the returned process still has
cursor 0. -/
theorem owned_rng_unchanged_by_realization :
    generate_realization (Coalescent.new 2 ⟨fun _ => 0, 0⟩) ⟨fun _ => 0, 0⟩
      = some ([(0, [[0], [1]]),
          ((((⟨fun _ => 0, 0⟩ : SRng).peek : ℚ) + 1) / ((2 : ℕ) : ℚ), [[0, 1]])],
          Coalescent.new 2 ⟨fun _ => 0, 0⟩, ⟨fun _ => 0, 1⟩) ∧
    (Coalescent.new 2 ⟨fun _ => 0, 0⟩).rng.cursor = 0 ∧
    (∀ (c : Coalescent) (g : SRng) (res : List (ℚ × Partition))
        (c' : Coalescent) (g' : SRng),
      generate_realization c g = some (res, c', g') → c'.rng = c.rng) := by
  refine ⟨rfl, rfl, ?_⟩
  intro c g res c' g' h
  obtain ⟨hc, _⟩ := generate_realization_inv h
  rw [hc]

/-- C10: `new(0, rng)` succeeds and yields a process whose partition has
zero blocks, and the first call of `next` on it panics (the `unwrap()` of
`Exp::new(0.0)`, which fails on the non-positive rate) instead of
returning `None` or a distinguishable error. -/
theorem new_zero_first_step_panics (rng g : SRng) :
    amountOfSets (Coalescent.new 0 rng).state = 0 ∧
    next (Coalescent.new 0 rng) g = .panicked := by
  exact ⟨rfl, rfl⟩

/-- Witness for C1 at group size 2. -/
theorem realization_endpoints_witness :
    1 ≤ 2 ∧
    ∃ res c' g',
      generate_realization (Coalescent.new 2 ⟨fun _ => 0, 0⟩) ⟨fun _ => 0, 0⟩
        = some (res, c', g') ∧
      res.length = 2 ∧
      res.head? = some (0, singletons 2) ∧
      amountOfSets (singletons 2) = 2 ∧
      (∀ b ∈ singletons 2, ∃ x, b = [x]) ∧
      ∃ t blk, res.getLast? = some (t, [blk]) ∧ ∀ x, x ∈ blk ↔ x < 2 :=
  ⟨by decide,
    realization_endpoints 2 (by decide) ⟨fun _ => 0, 0⟩ ⟨fun _ => 0, 0⟩⟩

/-- Witness for C2 at group size 2. -/
theorem realization_block_counts_witness :
    1 ≤ 2 ∧
    ((∃ res c' g',
      generate_realization (Coalescent.new 2 ⟨fun _ => 0, 0⟩) ⟨fun _ => 0, 0⟩
        = some (res, c', g') ∧
      res.map (fun e => amountOfSets e.2) = countdown 2) ∧
    (∀ (m : Nat) (c : Coalescent) (gg : SRng) (t : ℚ) (p : Partition)
        (c' : Coalescent) (g' : SRng), ValidPartition m c.state →
      next c gg = .event t p c' g' →
      amountOfSets p + 1 = amountOfSets c.state)) :=
  ⟨by decide,
    realization_block_counts 2 (by decide) ⟨fun _ => 0, 0⟩ ⟨fun _ => 0, 0⟩⟩

/-- Witness for C3 at a two-block state. -/
theorem step_pair_selection_witness :
    2 ≤ amountOfSets (Coalescent.new 2 ⟨fun _ => 0, 0⟩).state ∧
    (((Coalescent.new 2 ⟨fun _ => 0, 0⟩).rng.genRange
        (amountOfSets (Coalescent.new 2 ⟨fun _ => 0, 0⟩).state *
          (amountOfSets (Coalescent.new 2 ⟨fun _ => 0, 0⟩).state - 1) / 2)).1
        < amountOfSets (Coalescent.new 2 ⟨fun _ => 0, 0⟩).state *
          (amountOfSets (Coalescent.new 2 ⟨fun _ => 0, 0⟩).state - 1) / 2 ∧
    List.Pairwise lexLt
      (tupleCombinations (amountOfSets (Coalescent.new 2 ⟨fun _ => 0, 0⟩).state)) ∧
    (∀ a b : Nat,
      (a, b) ∈ tupleCombinations
          (amountOfSets (Coalescent.new 2 ⟨fun _ => 0, 0⟩).state) ↔
        a < b ∧ b < amountOfSets (Coalescent.new 2 ⟨fun _ => 0, 0⟩).state) ∧
    ∃ i j v1 v2,
      (tupleCombinations
        (amountOfSets (Coalescent.new 2 ⟨fun _ => 0, 0⟩).state))[((Coalescent.new
          2 ⟨fun _ => 0, 0⟩).rng.genRange
            (amountOfSets (Coalescent.new 2 ⟨fun _ => 0, 0⟩).state *
              (amountOfSets (Coalescent.new 2 ⟨fun _ => 0, 0⟩).state - 1) / 2)).1]?
        = some (i, j) ∧
      blockHead (Coalescent.new 2 ⟨fun _ => 0, 0⟩).state i = some v1 ∧
      blockHead (Coalescent.new 2 ⟨fun _ => 0, 0⟩).state j = some v2 ∧
      next (Coalescent.new 2 ⟨fun _ => 0, 0⟩) ⟨fun _ => 0, 0⟩
        = .event ((stdExpVariate ⟨fun _ => 0, 0⟩).1 /
            (amountOfSets (Coalescent.new 2 ⟨fun _ => 0, 0⟩).state : ℚ))
          (unionP (Coalescent.new 2 ⟨fun _ => 0, 0⟩).state v1 v2)
          { state := unionP (Coalescent.new 2 ⟨fun _ => 0, 0⟩).state v1 v2,
            rng := (Coalescent.new 2 ⟨fun _ => 0, 0⟩).rng.advance }
          (⟨fun _ => 0, 0⟩ : SRng).advance) :=
  ⟨by decide,
    @step_pair_selection 2 (Coalescent.new 2 ⟨fun _ => 0, 0⟩) ⟨fun _ => 0, 0⟩
      (singletons_valid 2) (by decide)⟩

/-- Witness for C6 at a two-block state. -/
theorem step_waiting_time_rate_witness :
    2 ≤ amountOfSets (Coalescent.new 2 ⟨fun _ => 0, 0⟩).state ∧
    ((∃ p' c' g', next (Coalescent.new 2 ⟨fun _ => 0, 0⟩) ⟨fun _ => 0, 0⟩
        = .event ((stdExpVariate ⟨fun _ => 0, 0⟩).1 /
            (amountOfSets (Coalescent.new 2 ⟨fun _ => 0, 0⟩).state : ℚ)) p' c' g') ∧
    (∃ e, ExpDist.new
        ((amountOfSets (Coalescent.new 2 ⟨fun _ => 0, 0⟩).state : ℕ) : ℚ)
        = some e ∧
      e.rate = (amountOfSets (Coalescent.new 2 ⟨fun _ => 0, 0⟩).state : ℚ) ∧
      (e.sample ⟨fun _ => 0, 0⟩).1 = (stdExpVariate ⟨fun _ => 0, 0⟩).1 /
        (amountOfSets (Coalescent.new 2 ⟨fun _ => 0, 0⟩).state : ℚ)) ∧
    (amountOfSets (Coalescent.new 2 ⟨fun _ => 0, 0⟩).state ≠ 3 →
      (amountOfSets (Coalescent.new 2 ⟨fun _ => 0, 0⟩).state : ℚ)
        ≠ ((amountOfSets (Coalescent.new 2 ⟨fun _ => 0, 0⟩).state *
            (amountOfSets (Coalescent.new 2 ⟨fun _ => 0, 0⟩).state - 1) / 2 : ℕ)
              : ℚ))) :=
  ⟨by decide,
    @step_waiting_time_rate 2 (Coalescent.new 2 ⟨fun _ => 0, 0⟩) ⟨fun _ => 0, 0⟩
      (singletons_valid 2) (by decide)⟩

/-- Witness for C7 on a freshly constructed two-block process. -/
theorem step_none_iff_terminal_witness :
    Reachable (Coalescent.new 2 ⟨fun _ => 0, 0⟩) ∧
    ((next (Coalescent.new 2 ⟨fun _ => 0, 0⟩) ⟨fun _ => 0, 0⟩ = .done ↔
        amountOfSets (Coalescent.new 2 ⟨fun _ => 0, 0⟩).state = 1) ∧
      (amountOfSets (Coalescent.new 2 ⟨fun _ => 0, 0⟩).state ≠ 1 →
        ∃ t p c' g', next (Coalescent.new 2 ⟨fun _ => 0, 0⟩) ⟨fun _ => 0, 0⟩
          = .event t p c' g')) :=
  ⟨Reachable.base 2 (by decide) ⟨fun _ => 0, 0⟩,
    step_none_iff_terminal (Coalescent.new 2 ⟨fun _ => 0, 0⟩) ⟨fun _ => 0, 0⟩
      (Reachable.base 2 (by decide) ⟨fun _ => 0, 0⟩)⟩

/-- Witness for C8 at group size 1. -/
theorem realization_preserves_state_witness :
    generate_realization (Coalescent.new 1 ⟨fun _ => 0, 0⟩) ⟨fun _ => 0, 0⟩
      = some ([(0, [[0]])], Coalescent.new 1 ⟨fun _ => 0, 0⟩,
          ⟨fun _ => 0, 0⟩) ∧
    (Coalescent.new 1 ⟨fun _ => 0, 0⟩).state
      = (Coalescent.new 1 ⟨fun _ => 0, 0⟩).state :=
  ⟨rfl, realization_preserves_state (Coalescent.new 1 ⟨fun _ => 0, 0⟩)
    ⟨fun _ => 0, 0⟩ [(0, [[0]])] (Coalescent.new 1 ⟨fun _ => 0, 0⟩)
    ⟨fun _ => 0, 0⟩ rfl⟩

/-- Witness for C5: two consecutive calls at group size 2, the second with
the global source left by the first. -/
theorem consecutive_realizations_witness :
    generate_realization (Coalescent.new 2 ⟨fun _ => 0, 0⟩) ⟨fun _ => 0, 0⟩
      = some ([(0, [[0], [1]]),
          ((((0 : ℕ) : ℚ) + 1) / ((2 : ℕ) : ℚ), [[0, 1]])],
          Coalescent.new 2 ⟨fun _ => 0, 0⟩, ⟨fun _ => 0, 1⟩) ∧
    generate_realization (Coalescent.new 2 ⟨fun _ => 0, 0⟩) ⟨fun _ => 0, 1⟩
      = some ([(0, [[0], [1]]),
          ((((0 : ℕ) : ℚ) + 1) / ((2 : ℕ) : ℚ), [[0, 1]])],
          Coalescent.new 2 ⟨fun _ => 0, 0⟩, ⟨fun _ => 0, 2⟩) ∧
    List.map Prod.snd
        [((0 : ℚ), [[0], [1]]),
          ((((0 : ℕ) : ℚ) + 1) / ((2 : ℕ) : ℚ), ([[0, 1]] : Partition))]
      = List.map Prod.snd
        [((0 : ℚ), [[0], [1]]),
          ((((0 : ℕ) : ℚ) + 1) / ((2 : ℕ) : ℚ), ([[0, 1]] : Partition))] :=
  ⟨rfl, rfl,
    consecutive_realizations_same_partitions
      (Coalescent.new 2 ⟨fun _ => 0, 0⟩) ⟨fun _ => 0, 0⟩ ⟨fun _ => 0, 1⟩
      [((0 : ℚ), [[0], [1]]),
        ((((0 : ℕ) : ℚ) + 1) / ((2 : ℕ) : ℚ), [[0, 1]])]
      [((0 : ℚ), [[0], [1]]),
        ((((0 : ℕ) : ℚ) + 1) / ((2 : ℕ) : ℚ), [[0, 1]])]
      (Coalescent.new 2 ⟨fun _ => 0, 0⟩) (Coalescent.new 2 ⟨fun _ => 0, 0⟩)
      ⟨fun _ => 0, 1⟩ ⟨fun _ => 0, 2⟩ rfl rfl⟩

/-- Witness for C4's frame clause, at group size 3 with a seeded owned
source: the returned process carries the owned source unchanged. -/
theorem owned_rng_unchanged_witness :
    generate_realization (Coalescent.new 3 ⟨fun _ => 1, 0⟩) ⟨fun _ => 0, 0⟩
      = some ([(0, [[0], [1], [2]]),
          ((((0 : ℕ) : ℚ) + 1) / ((3 : ℕ) : ℚ), [[0, 2], [1]]),
          ((((0 : ℕ) : ℚ) + 1) / ((2 : ℕ) : ℚ), [[0, 2, 1]])],
          Coalescent.new 3 ⟨fun _ => 1, 0⟩, ⟨fun _ => 0, 2⟩) ∧
    (Coalescent.new 3 ⟨fun _ => 1, 0⟩).rng
      = (Coalescent.new 3 ⟨fun _ => 1, 0⟩).rng :=
  ⟨rfl, owned_rng_unchanged_by_realization.2.2
    (Coalescent.new 3 ⟨fun _ => 1, 0⟩) ⟨fun _ => 0, 0⟩
    [(0, [[0], [1], [2]]),
      ((((0 : ℕ) : ℚ) + 1) / ((3 : ℕ) : ℚ), [[0, 2], [1]]),
      ((((0 : ℕ) : ℚ) + 1) / ((2 : ℕ) : ℚ), [[0, 2, 1]])]
    (Coalescent.new 3 ⟨fun _ => 1, 0⟩) ⟨fun _ => 0, 2⟩ rfl⟩

end Coalescence
